import Mathlib

/-!
# Handle table of package `resource`

A shallow embedding of `src/resource.go`: the package-level variables `live`
and `next` become the two fields of `Table`, and the four operations `Alloc`,
`Get`, `Set` and `Wipe` become functions on tables.  The mutex `mux` makes each
operation one indivisible step, so a sequential trace of operations (`run`) is
the model of any execution.

* `Pointer` is Go's `uint`: a natural number, incremented modulo `2 ^ bits`
  (`bits` is 32 or 64 depending on the target; every statement below holds for
  any width).
* `any` is `GoAny α`: the nil interface value or a payload of type `α`.
* `map[Pointer]any` is a `Finmap`: finite, keys unique, order irrelevant.
* The `for` loop of `Alloc` is `probe`, which takes a bound on the number of
  tests it may perform; `none` stands for a loop that has not stopped within
  that bound.
-/

namespace Resource

/-- Go's `any` (`interface{}`): either the nil interface or a value. -/
inductive GoAny (α : Type) where
  | nil : GoAny α
  | val (a : α) : GoAny α
  deriving DecidableEq, Repr

/-- The source's `type Pointer uint`; the values in use are below `2 ^ bits`. -/
abbrev Pointer := Nat

/-- The source's `map[Pointer]any`. -/
abbrev LiveMap (α : Type) := Finmap (fun _ : Pointer => GoAny α)

/-- The package state: `live` (currently reachable values) and `next`. -/
structure Table (α : Type) where
  live : LiveMap α
  next : Pointer

instance instDecidableEqTable {α : Type} [DecidableEq α] : DecidableEq (Table α) :=
  fun a b =>
    match a, b with
    | ⟨l1, n1⟩, ⟨l2, n2⟩ =>
      if h : l1 = l2 ∧ n1 = n2 then isTrue (by rw [h.1, h.2])
      else isFalse (fun e => h (by cases e; exact ⟨rfl, rfl⟩))

/-- The state at program start: `live = make(map[Pointer]any)`, `next = 0`. -/
def Table.init (α : Type) : Table α := ⟨∅, 0⟩

/-- The loop `for { if _, ok := live[next]; !ok { break }; next++ }` of `Alloc`,
allowed at most `fuel` tests of `live[next]`.  `next++` wraps at `2 ^ bits`. -/
def probe {α : Type} (bits : Nat) (live : LiveMap α) : Nat → Pointer → Option Pointer
  | 0, _ => none
  | fuel + 1, next =>
    match live.lookup next with
    | none => some next
    | some _ => probe bits live fuel ((next + 1) % 2 ^ bits)

/-- The source's `Alloc`: run the loop, then `live[next] = value; return next`.
The result is the new table and the returned pointer. -/
def Alloc {α : Type} (bits fuel : Nat) (s : Table α) (value : GoAny α) :
    Option (Table α × Pointer) :=
  match probe bits s.live fuel s.next with
  | none => none
  | some n => some ({ live := s.live.insert n value, next := n }, n)

/-- The source's `Pointer.Get`: `v := live[x]; return v`.  Indexing a Go map with
a missing key yields the zero value of `any`, which is nil. -/
def Get {α : Type} (s : Table α) (x : Pointer) : GoAny α :=
  match s.live.lookup x with
  | some v => v
  | none => GoAny.nil

/-- The source's `Pointer.Set`: `live[x] = value`. -/
def Set {α : Type} (s : Table α) (x : Pointer) (value : GoAny α) : Table α :=
  { s with live := s.live.insert x value }

/-- The source's `Pointer.Wipe`: `delete(live, x)`. -/
def Wipe {α : Type} (s : Table α) (x : Pointer) : Table α :=
  { s with live := s.live.erase x }

/-- One call of the package API. -/
inductive Op (α : Type) where
  | alloc (value : GoAny α) : Op α
  | get (x : Pointer) : Op α
  | set (x : Pointer) (value : GoAny α) : Op α
  | wipe (x : Pointer) : Op α
  deriving DecidableEq, Repr

/-- What a call hands back to its caller. -/
inductive Ret (α : Type) where
  | ptr (p : Pointer) : Ret α
  | val (v : GoAny α) : Ret α
  | unit : Ret α
  deriving DecidableEq, Repr

/-- One call executed under the lock: the table afterwards and the result. -/
def step {α : Type} (bits fuel : Nat) (s : Table α) : Op α → Option (Table α × Ret α)
  | Op.alloc value =>
    match Alloc bits fuel s value with
    | none => none
    | some (s1, p) => some (s1, Ret.ptr p)
  | Op.get x => some (s, Ret.val (Get s x))
  | Op.set x value => some (Set s x value, Ret.unit)
  | Op.wipe x => some (Wipe s x, Ret.unit)

/-- A serialized sequence of calls: the final table and the results in order. -/
def run {α : Type} (bits fuel : Nat) : Table α → List (Op α) → Option (Table α × List (Ret α))
  | s, [] => some (s, [])
  | s, op :: ops =>
    match step bits fuel s op with
    | none => none
    | some (s1, r) =>
      match run bits fuel s1 ops with
      | none => none
      | some (s2, rs) => some (s2, r :: rs)

/-- Whether the call `op` with result `r` puts the key `h` into `live`: an
`Alloc` that returned `h`, or a `Set` on `h`. -/
def Stores {α : Type} (h : Pointer) : Op α → Ret α → Bool
  | Op.alloc _, Ret.ptr p => decide (p = h)
  | Op.set x _, _ => decide (x = h)
  | _, _ => false

/-! ## Basic facts about the operations -/

theorem probe_lookup_none {α : Type} (bits : Nat) (live : LiveMap α) :
    ∀ (fuel : Nat) (next n : Pointer), probe bits live fuel next = some n →
      live.lookup n = none := by
  intro fuel
  induction fuel with
  | zero => intro next n h; simp [probe] at h
  | succ k ih =>
    intro next n h
    unfold probe at h
    cases hl : live.lookup next with
    | none => simp [hl] at h; subst h; exact hl
    | some w => simp [hl] at h; exact ih _ _ h

/-- More fuel does not change the result of a loop that has stopped. -/
theorem probe_fuel_mono {α : Type} (bits : Nat) (live : LiveMap α) :
    ∀ (fuel extra : Nat) (next n : Pointer), probe bits live fuel next = some n →
      probe bits live (fuel + extra) next = some n := by
  intro fuel
  induction fuel with
  | zero => intro extra next n h; simp [probe] at h
  | succ k ih =>
    intro extra next n h
    rw [Nat.succ_add]
    unfold probe at h ⊢
    cases hl : live.lookup next with
    | none => simpa [hl] using h
    | some w =>
      simp only [hl] at h ⊢
      exact ih extra _ _ h

theorem alloc_eq_some {α : Type} {bits fuel : Nat} {s s1 : Table α} {v : GoAny α}
    {h : Pointer} (hret : Alloc bits fuel s v = some (s1, h)) :
    probe bits s.live fuel s.next = some h ∧
      s1 = { live := s.live.insert h v, next := h } := by
  unfold Alloc at hret
  cases hp : probe bits s.live fuel s.next with
  | none => simp [hp] at hret
  | some n =>
    simp [hp] at hret
    obtain ⟨h1, h2⟩ := hret
    subst h2
    exact ⟨rfl, h1.symm⟩

theorem alloc_not_mem {α : Type} {bits fuel : Nat} {s s1 : Table α} {v : GoAny α}
    {h : Pointer} (hret : Alloc bits fuel s v = some (s1, h)) : h ∉ s.live := by
  have hp := (alloc_eq_some hret).1
  exact Finmap.lookup_eq_none.mp (probe_lookup_none bits s.live fuel s.next h hp)

theorem alloc_live {α : Type} {bits fuel : Nat} {s s1 : Table α} {v : GoAny α}
    {h : Pointer} (hret : Alloc bits fuel s v = some (s1, h)) :
    s1.live = s.live.insert h v := by
  rw [(alloc_eq_some hret).2]

theorem get_set_self {α : Type} (s : Table α) (h : Pointer) (v : GoAny α) :
    Get (Set s h v) h = v := by
  simp [Get, Set]

theorem get_wipe_self {α : Type} (s : Table α) (h : Pointer) :
    Get (Wipe s h) h = GoAny.nil := by
  simp [Get, Wipe]

theorem get_of_not_mem {α : Type} (s : Table α) (h : Pointer) (hl : h ∉ s.live) :
    Get s h = GoAny.nil := by
  simp [Get, Finmap.lookup_eq_none.mpr hl]

theorem mem_set_iff {α : Type} (s : Table α) (h k : Pointer) (v : GoAny α) :
    k ∈ (Set s h v).live ↔ k = h ∨ k ∈ s.live := by
  simp [Set, Finmap.mem_insert, eq_comm]

theorem mem_wipe_iff {α : Type} (s : Table α) (h k : Pointer) :
    k ∈ (Wipe s h).live ↔ k ≠ h ∧ k ∈ s.live := by
  simp [Wipe, Finmap.mem_erase]


theorem run_cons_eq_some {α : Type} {bits fuel : Nat} {s s2 : Table α} {op : Op α}
    {ops : List (Op α)} {rets : List (Ret α)}
    (hrun : run bits fuel s (op :: ops) = some (s2, rets)) :
    ∃ s1 r rs, step bits fuel s op = some (s1, r) ∧ run bits fuel s1 ops = some (s2, rs) ∧
      rets = r :: rs := by
  unfold run at hrun
  cases hs : step bits fuel s op with
  | none => simp [hs] at hrun
  | some p =>
    obtain ⟨s1, r⟩ := p
    cases hr : run bits fuel s1 ops with
    | none => simp [hs, hr] at hrun
    | some q =>
      obtain ⟨s3, rs⟩ := q
      simp [hs, hr] at hrun
      exact ⟨s1, r, rs, rfl, by rw [hr, hrun.1], hrun.2.symm⟩

theorem step_alloc_eq_some {α : Type} {bits fuel : Nat} {s s1 : Table α} {v : GoAny α}
    {r : Ret α} (hs : step bits fuel s (Op.alloc v) = some (s1, r)) :
    ∃ p, Alloc bits fuel s v = some (s1, p) ∧ r = Ret.ptr p := by
  unfold step at hs
  cases ha : Alloc bits fuel s v with
  | none => simp [ha] at hs
  | some q =>
    obtain ⟨s3, p⟩ := q
    simp [ha] at hs
    exact ⟨p, by rw [hs.1], hs.2.symm⟩

/-- Liveness after one call: `k` is live afterwards exactly when it was live and
the call is not `Wipe(k)`, or the call stored under `k`. -/
theorem step_mem_iff {α : Type} {bits fuel : Nat} {s s1 : Table α} {op : Op α} {r : Ret α}
    (k : Pointer) (hs : step bits fuel s op = some (s1, r)) :
    k ∈ s1.live ↔ (k ∈ s.live ∧ op ≠ Op.wipe k) ∨ Stores k op r = true := by
  cases op with
  | alloc v =>
    obtain ⟨p, ha, hr⟩ := step_alloc_eq_some hs
    subst hr
    rw [alloc_live ha, Finmap.mem_insert]
    simp [Stores, eq_comm, or_comm]
  | get x =>
    simp [step] at hs
    rw [← hs.1]
    simp [Stores]
  | set x v =>
    simp [step] at hs
    rw [← hs.1, mem_set_iff]
    simp [Stores, eq_comm, or_comm]
  | wipe x =>
    simp [step] at hs
    rw [← hs.1, mem_wipe_iff]
    simp [Stores, eq_comm, and_comm]

theorem run_live_of_no_wipe {α : Type} {bits fuel : Nat} (h : Pointer) :
    ∀ (ops : List (Op α)) (s s2 : Table α) (rets : List (Ret α)) (j : Nat) (v : GoAny α),
      run bits fuel s ops = some (s2, rets) → h ∈ s.live →
      ops[j]? = some (Op.alloc v) → rets[j]? = some (Ret.ptr h) →
      ∃ k, k < j ∧ ops[k]? = some (Op.wipe h) := by
  intro ops
  induction ops with
  | nil => intro s s2 rets j v _ _ hj; simp at hj
  | cons op ops ih =>
    intro s s2 rets j v hrun hl hj hrj
    obtain ⟨s1, r, rs, hs, hrest, hrets⟩ := run_cons_eq_some hrun
    subst hrets
    cases j with
    | zero =>
      simp at hj hrj
      subst hj hrj
      obtain ⟨p, ha, hp⟩ := step_alloc_eq_some hs
      cases hp
      exact absurd hl (alloc_not_mem ha)
    | succ n =>
      simp at hj hrj
      by_cases hw : op = Op.wipe h
      · exact ⟨0, Nat.succ_pos n, by simp [hw]⟩
      · have hl1 : h ∈ s1.live := (step_mem_iff h hs).mpr (Or.inl ⟨hl, hw⟩)
        obtain ⟨k, hk, hwk⟩ := ih s1 s2 rs n v hrest hl1 hj hrj
        exact ⟨k + 1, Nat.succ_lt_succ hk, by simpa using hwk⟩

theorem run_mem_iff {α : Type} {bits fuel : Nat} (h : Pointer) :
    ∀ (ops : List (Op α)) (s s2 : Table α) (rets : List (Ret α)),
      run bits fuel s ops = some (s2, rets) →
      (h ∈ s2.live ↔
        (h ∈ s.live ∧ ∀ k : Nat, ops[k]? ≠ some (Op.wipe h)) ∨
        ∃ (i : Nat) (op : Op α) (r : Ret α), ops[i]? = some op ∧ rets[i]? = some r ∧ Stores h op r = true ∧
          ∀ k : Nat, i < k → ops[k]? ≠ some (Op.wipe h)) := by
  intro ops
  induction ops with
  | nil =>
    intro s s2 rets hrun
    simp [run] at hrun
    rw [← hrun.1]
    simp
  | cons op ops ih =>
    intro s s2 rets hrun
    obtain ⟨s1, r, rs, hs, hrest, hrets⟩ := run_cons_eq_some hrun
    subst hrets
    rw [ih s1 s2 rs hrest, step_mem_iff h hs]
    have hnw : (∀ k : Nat, (op :: ops)[k]? ≠ some (Op.wipe h)) ↔
        op ≠ Op.wipe h ∧ ∀ k : Nat, ops[k]? ≠ some (Op.wipe h) := by
      constructor
      · intro hall
        exact ⟨by simpa using hall 0, fun k => by simpa using hall (k + 1)⟩
      · rintro ⟨h0, hall⟩ k
        cases k with
        | zero => simpa using h0
        | succ n => simpa using hall n
    have hex : (∃ (i : Nat) (o : Op α) (q : Ret α), (op :: ops)[i]? = some o ∧ (r :: rs)[i]? = some q ∧ Stores h o q = true ∧
          ∀ k : Nat, i < k → (op :: ops)[k]? ≠ some (Op.wipe h)) ↔
        (Stores h op r = true ∧ ∀ k : Nat, ops[k]? ≠ some (Op.wipe h)) ∨
        ∃ (i : Nat) (o : Op α) (q : Ret α), ops[i]? = some o ∧ rs[i]? = some q ∧ Stores h o q = true ∧
          ∀ k : Nat, i < k → ops[k]? ≠ some (Op.wipe h) := by
      constructor
      · rintro ⟨i, o, q, ho, hq, hst, hall⟩
        cases i with
        | zero =>
          simp at ho hq
          subst ho hq
          exact Or.inl ⟨hst, fun k => by simpa using hall (k + 1) (Nat.succ_pos k)⟩
        | succ n =>
          simp at ho hq
          exact Or.inr ⟨n, o, q, ho, hq, hst, fun k hk => by
            simpa using hall (k + 1) (Nat.succ_lt_succ hk)⟩
      · rintro (⟨hst, hall⟩ | ⟨i, o, q, ho, hq, hst, hall⟩)
        · refine ⟨0, op, r, by simp, by simp, hst, ?_⟩
          intro k hk
          cases k with
          | zero => exact absurd hk (Nat.lt_irrefl 0)
          | succ n => simpa using hall n
        · refine ⟨i + 1, o, q, by simpa using ho, by simpa using hq, hst, ?_⟩
          intro k hk
          cases k with
          | zero => exact absurd hk (Nat.not_lt_zero _)
          | succ n => simpa using hall n (Nat.lt_of_succ_lt_succ hk)
    rw [hnw, hex]
    have taut : ∀ A W S N E : Prop,
        (((A ∧ W) ∨ S) ∧ N ∨ E ↔ (A ∧ W ∧ N) ∨ ((S ∧ N) ∨ E)) := by
      intro A W S N E
      tauto
    exact taut _ _ _ _ _


/-! ## Allocation -/

/-- C1 (round trip, also on a reissued handle): whenever `Alloc(v)` returns the
handle `h`, `Get(h)` in the resulting table returns exactly `v`, for every value
`v`, nil included.  The table before the call is arbitrary, so this covers the
tables in which the number `h` was live with another value and has been wiped:
the reissued handle gives the second value only. -/
theorem alloc_get_roundtrip {α : Type} (bits fuel : Nat) (s s1 : Table α) (v : GoAny α)
    (h : Pointer) (hret : Alloc bits fuel s v = some (s1, h)) : Get s1 h = v := by
  rw [(alloc_eq_some hret).2]
  simp [Get]

/-- Instance of C1 on a reissued handle: 0 held `10`, was wiped, and the next
`Alloc(20)` returns 0 again; `Get(0)` is `20`. -/
theorem alloc_get_roundtrip_witness :
    Alloc 64 1 (Wipe (Set (Table.init Nat) 0 (GoAny.val 10)) 0) (GoAny.val 20)
        = some (Set (Table.init Nat) 0 (GoAny.val 20), 0) ∧
      Get (Set (Table.init Nat) 0 (GoAny.val 20)) 0 = GoAny.val 20 :=
  ⟨by decide,
    alloc_get_roundtrip 64 1 (Wipe (Set (Table.init Nat) 0 (GoAny.val 10)) 0)
      (Set (Table.init Nat) 0 (GoAny.val 20)) (GoAny.val 20) 0 (by decide)⟩

/-- C2 (freshness of Alloc): the handle returned by `Alloc(v)` is not a key of
`live` just before the call and is a key of `live` just after it. -/
theorem alloc_fresh {α : Type} (bits fuel : Nat) (s s1 : Table α) (v : GoAny α)
    (h : Pointer) (hret : Alloc bits fuel s v = some (s1, h)) :
    h ∉ s.live ∧ h ∈ s1.live := by
  refine ⟨alloc_not_mem hret, ?_⟩
  rw [alloc_live hret]
  simp [Finmap.mem_insert]

/-- Instance of C2: with 0 and 1 live and the cursor at 0, `Alloc` returns 2. -/
theorem alloc_fresh_witness :
    Alloc 64 3 (Set (Set (Table.init Nat) 0 GoAny.nil) 1 (GoAny.val 5)) (GoAny.val 7)
        = some (Table.mk
            (Set (Set (Set (Table.init Nat) 0 GoAny.nil) 1 (GoAny.val 5)) 2 (GoAny.val 7)).live
            2, 2) ∧
      2 ∉ (Set (Set (Table.init Nat) 0 GoAny.nil) 1 (GoAny.val 5)).live ∧
      2 ∈ (Table.mk
            (Set (Set (Set (Table.init Nat) 0 GoAny.nil) 1 (GoAny.val 5)) 2 (GoAny.val 7)).live
            2).live :=
  ⟨by decide,
    alloc_fresh 64 3 (Set (Set (Table.init Nat) 0 GoAny.nil) 1 (GoAny.val 5))
      (Table.mk
        (Set (Set (Set (Table.init Nat) 0 GoAny.nil) 1 (GoAny.val 5)) 2 (GoAny.val 7)).live 2)
      (GoAny.val 7) 2 (by decide)⟩

/-! ## Release -/

/-- C4 (absence after release): for every table and every handle `h`, live or
not, after `Wipe(h)` the handle is not a key of `live` and `Get(h)` returns nil;
the same holds after a second `Wipe(h)`. -/
theorem wipe_absent {α : Type} (s : Table α) (h : Pointer) :
    (h ∉ (Wipe s h).live ∧ Get (Wipe s h) h = GoAny.nil) ∧
      (h ∉ (Wipe (Wipe s h) h).live ∧ Get (Wipe (Wipe s h) h) h = GoAny.nil) := by
  have key : ∀ t : Table α, h ∉ (Wipe t h).live ∧ Get (Wipe t h) h = GoAny.nil := by
    intro t
    exact ⟨fun hm => ((mem_wipe_iff t h h).mp hm).1 rfl, get_wipe_self t h⟩
  exact ⟨key s, key (Wipe s h)⟩

/-! ## Dereference -/

/-- C8 (Get is a pure lookup): `Get(h)` returns the value stored under `h` when
`h` is a key of `live` and nil when it is not; the call leaves the table (map
and cursor) as it was. -/
theorem get_pure_lookup {α : Type} (bits fuel : Nat) (s : Table α) (h : Pointer) :
    (∀ v, s.live.lookup h = some v → Get s h = v) ∧
      (h ∉ s.live → Get s h = GoAny.nil) ∧
      step bits fuel s (Op.get h) = some (s, Ret.val (Get s h)) := by
  refine ⟨?_, get_of_not_mem s h, rfl⟩
  intro v hv
  simp [Get, hv]

/-- Instance of C8: handle 1 holds `5`, handle 2 was wiped after holding `9`. -/
theorem get_pure_lookup_witness :
    Get (Wipe (Set (Set (Table.init Nat) 1 (GoAny.val 5)) 2 (GoAny.val 9)) 2) 1 = GoAny.val 5 ∧
      Get (Wipe (Set (Set (Table.init Nat) 1 (GoAny.val 5)) 2 (GoAny.val 9)) 2) 2 = GoAny.nil :=
  ⟨(get_pure_lookup 64 1 _ 1).1 _ (by decide), (get_pure_lookup 64 1 _ 2).2.1 (by decide)⟩

/-! ## Replacement -/

/-- C9 (replacement): for every handle `h` that is live and every value `v`,
after `Set(h, v)` the handle is still live and `Get(h)` returns `v`. -/
theorem set_replaces {α : Type} (s : Table α) (h : Pointer) (v : GoAny α)
    (hl : h ∈ s.live) : h ∈ (Set s h v).live ∧ Get (Set s h v) h = v := by
  exact ⟨(mem_set_iff s h h v).mpr (Or.inr hl), get_set_self s h v⟩

/-- Instance of C9: handle 0 holds `1`; after `Set(0, 2)` it holds `2`. -/
theorem set_replaces_witness :
    (0 ∈ (Set (Table.init Nat) 0 (GoAny.val 1)).live) ∧
      (0 ∈ (Set (Set (Table.init Nat) 0 (GoAny.val 1)) 0 (GoAny.val 2)).live ∧
        Get (Set (Set (Table.init Nat) 0 (GoAny.val 1)) 0 (GoAny.val 2)) 0 = GoAny.val 2) :=
  ⟨by decide, set_replaces _ 0 _ (by decide)⟩

/-- C10 (isolation of Set): for handles `h` and `k` with `k` different from `h`,
the liveness of `k` and the result of `Get(k)` are the same after `Set(h, v)` as
before it. -/
theorem set_isolated {α : Type} (s : Table α) (h k : Pointer) (v : GoAny α)
    (hne : k ≠ h) :
    (k ∈ (Set s h v).live ↔ k ∈ s.live) ∧ Get (Set s h v) k = Get s k := by
  constructor
  · rw [mem_set_iff]
    exact ⟨fun hm => hm.resolve_left hne, Or.inr⟩
  · simp [Get, Set, Finmap.lookup_insert_of_ne _ hne]

/-- Instance of C10: `Set(0, 2)` with handle 1 holding `7` and handle 3 absent. -/
theorem set_isolated_witness :
    ((1 ∈ (Set (Set (Table.init Nat) 1 (GoAny.val 7)) 0 (GoAny.val 2)).live ↔
        1 ∈ (Set (Table.init Nat) 1 (GoAny.val 7)).live) ∧
      Get (Set (Set (Table.init Nat) 1 (GoAny.val 7)) 0 (GoAny.val 2)) 1
        = Get (Set (Table.init Nat) 1 (GoAny.val 7)) 1) ∧
    Get (Set (Table.init Nat) 1 (GoAny.val 7)) 1 = GoAny.val 7 :=
  ⟨set_isolated _ 0 1 _ (by decide), by decide⟩

/-- C5 as stated fails: handle 0 is allocated and wiped, so it is not live; after
`Set(0, 2)` it is live again and `Get(0)` returns `2`, and the set of live
handles has changed. -/
theorem set_keeps_liveness_counterexample :
    Alloc 64 1 (Table.init Nat) (GoAny.val 1) = some (Set (Table.init Nat) 0 (GoAny.val 1), 0) ∧
      0 ∉ (Wipe (Set (Table.init Nat) 0 (GoAny.val 1)) 0).live ∧
      0 ∈ (Set (Wipe (Set (Table.init Nat) 0 (GoAny.val 1)) 0) 0 (GoAny.val 2)).live ∧
      Get (Set (Wipe (Set (Table.init Nat) 0 (GoAny.val 1)) 0) 0 (GoAny.val 2)) 0 = GoAny.val 2 ∧
      (Set (Wipe (Set (Table.init Nat) 0 (GoAny.val 1)) 0) 0 (GoAny.val 2)).live.keys
        ≠ (Wipe (Set (Table.init Nat) 0 (GoAny.val 1)) 0).live.keys := by
  decide

/-- C5 (amended): the set of live handles after `Set(h, v)` is the set before it
together with `h`.  So `Set` removes no handle and changes the liveness of no
handle other than `h`; when `h` is live before the call the set of live handles
is unchanged; when `h` is not live before the call, `Set(h, v)` makes it live and
`Get(h)` returns `v`. -/
theorem set_liveness {α : Type} (s : Table α) (h : Pointer) (v : GoAny α) :
    (Set s h v).live.keys = insert h s.live.keys ∧
      (h ∈ s.live → (Set s h v).live.keys = s.live.keys) ∧
      (h ∉ s.live → h ∈ (Set s h v).live ∧ Get (Set s h v) h = v) := by
  have hk : (Set s h v).live.keys = insert h s.live.keys := by
    ext k
    rw [Finmap.mem_keys, mem_set_iff, Finset.mem_insert, Finmap.mem_keys]
  refine ⟨hk, ?_, ?_⟩
  · intro hl
    rw [hk]
    exact Finset.insert_eq_of_mem (Finmap.mem_keys.mpr hl)
  · intro _
    exact ⟨(mem_set_iff s h h v).mpr (Or.inl rfl), get_set_self s h v⟩

/-- Instance of C5 (amended): `Set(1, 9)` on a table whose only live handle is 1
keeps the set of live handles, and `Set(3, 9)` on it makes 3 live. -/
theorem set_liveness_witness :
    (1 ∈ (Set (Table.init Nat) 1 (GoAny.val 7)).live ∧
      (Set (Set (Table.init Nat) 1 (GoAny.val 7)) 1 (GoAny.val 9)).live.keys
        = (Set (Table.init Nat) 1 (GoAny.val 7)).live.keys) ∧
    (3 ∉ (Set (Table.init Nat) 1 (GoAny.val 7)).live ∧
      3 ∈ (Set (Set (Table.init Nat) 1 (GoAny.val 7)) 3 (GoAny.val 9)).live ∧
      Get (Set (Set (Table.init Nat) 1 (GoAny.val 7)) 3 (GoAny.val 9)) 3 = GoAny.val 9) :=
  ⟨⟨by decide,
      (set_liveness (Set (Table.init Nat) 1 (GoAny.val 7)) 1 (GoAny.val 9)).2.1 (by decide)⟩,
    ⟨by decide,
      (set_liveness (Set (Table.init Nat) 1 (GoAny.val 7)) 3 (GoAny.val 9)).2.2 (by decide)⟩⟩

/-! ## Absent and nil -/

/-- C6 as stated fails: `Alloc(nil)` on the empty table makes handle 0 live
holding nil; handle 0 is not live in the empty table; `Get(0)` returns nil in
both, so the two results do not differ. -/
theorem get_absent_distinct_counterexample :
    Alloc 64 1 (Table.init Nat) GoAny.nil = some (Set (Table.init Nat) 0 GoAny.nil, 0) ∧
      (Set (Table.init Nat) 0 GoAny.nil).live.lookup 0 = some GoAny.nil ∧
      0 ∉ (Table.init Nat).live ∧
      ¬ (Get (Set (Table.init Nat) 0 GoAny.nil) 0 ≠ Get (Table.init Nat) 0) := by
  decide

/-- C6 (amended): when `h` is live in `s1` holding `v` and `h` is not live in
`s2`, the result of `Get(h)` in `s1` equals the result of `Get(h)` in `s2`
exactly when `v` is nil.  The absent result is nil: it differs from every stored
value other than nil and coincides with a stored nil. -/
theorem get_absent_is_nil {α : Type} (s1 s2 : Table α) (h : Pointer) (v : GoAny α)
    (hl : s1.live.lookup h = some v) (ha : h ∉ s2.live) :
    Get s2 h = GoAny.nil ∧ (Get s1 h = Get s2 h ↔ v = GoAny.nil) := by
  have h2 : Get s2 h = GoAny.nil := get_of_not_mem s2 h ha
  have h1 : Get s1 h = v := by simp [Get, hl]
  rw [h1, h2]
  exact ⟨rfl, Iff.rfl⟩

/-- Instance of C6 (amended): handle 0 holding `4` against the empty table. -/
theorem get_absent_is_nil_witness :
    (Set (Table.init Nat) 0 (GoAny.val 4)).live.lookup 0 = some (GoAny.val 4) ∧
      0 ∉ (Table.init Nat).live ∧
      Get (Set (Table.init Nat) 0 (GoAny.val 4)) 0 ≠ Get (Table.init Nat) 0 :=
  ⟨by decide, by decide, fun e =>
    GoAny.noConfusion
      (((get_absent_is_nil (Set (Table.init Nat) 0 (GoAny.val 4)) (Table.init Nat) 0
        (GoAny.val 4) (by decide) (by decide)).2).mp e)⟩

/-! ## Traces -/

/-- C3 (uniqueness over traces): in every serialized sequence of `Alloc`, `Get`,
`Set` and `Wipe` calls, from any table, if the calls at positions `i < j` are
both `Alloc` and both return the handle `h`, then a `Wipe(h)` occurs at some
position strictly between them.  So no two `Alloc` calls return the same handle
while both are still live. -/
theorem alloc_unique_in_trace {α : Type} (bits fuel : Nat) (h : Pointer) :
    ∀ (ops : List (Op α)) (s s2 : Table α) (rets : List (Ret α)) (i j : Nat)
      (v1 v2 : GoAny α),
      run bits fuel s ops = some (s2, rets) → i < j →
      ops[i]? = some (Op.alloc v1) → rets[i]? = some (Ret.ptr h) →
      ops[j]? = some (Op.alloc v2) → rets[j]? = some (Ret.ptr h) →
      ∃ k : Nat, i < k ∧ k < j ∧ ops[k]? = some (Op.wipe h) := by
  intro ops
  induction ops with
  | nil => intro s s2 rets i j v1 v2 _ _ hi; simp at hi
  | cons op ops ih =>
    intro s s2 rets i j v1 v2 hrun hij hi hri hj hrj
    obtain ⟨s1, r, rs, hs, hrest, hrets⟩ := run_cons_eq_some hrun
    subst hrets
    cases j with
    | zero => exact absurd hij (Nat.not_lt_zero i)
    | succ n =>
      simp at hj hrj
      cases i with
      | zero =>
        simp at hi hri
        subst hi hri
        have hl1 : h ∈ s1.live := (step_mem_iff h hs).mpr (Or.inr (by simp [Stores]))
        obtain ⟨k, hk, hwk⟩ := run_live_of_no_wipe h ops s1 s2 rs n v2 hrest hl1 hj hrj
        exact ⟨k + 1, Nat.succ_pos k, Nat.succ_lt_succ hk, by simpa using hwk⟩
      | succ m =>
        simp at hi hri
        obtain ⟨k, hmk, hkn, hwk⟩ :=
          ih s1 s2 rs m n v1 v2 hrest (Nat.lt_of_succ_lt_succ hij) hi hri hj hrj
        exact ⟨k + 1, Nat.succ_lt_succ hmk, Nat.succ_lt_succ hkn, by simpa using hwk⟩

/-- Instance of C3: `Alloc(1)`, `Wipe(0)`, `Alloc(2)` on the empty table; both
allocations return 0 and the `Wipe(0)` stands between them. -/
theorem alloc_unique_in_trace_witness :
    run 64 1 (Table.init Nat) [Op.alloc (GoAny.val 1), Op.wipe 0, Op.alloc (GoAny.val 2)]
        = some (Set (Table.init Nat) 0 (GoAny.val 2), [Ret.ptr 0, Ret.unit, Ret.ptr 0]) ∧
      ∃ k : Nat, 0 < k ∧ k < 2 ∧
        [Op.alloc (GoAny.val 1), Op.wipe 0, Op.alloc (GoAny.val 2)][k]? = some (Op.wipe 0) :=
  ⟨by decide,
    alloc_unique_in_trace 64 1 0
      [Op.alloc (GoAny.val 1), Op.wipe 0, Op.alloc (GoAny.val 2)]
      (Table.init Nat) (Set (Table.init Nat) 0 (GoAny.val 2)) [Ret.ptr 0, Ret.unit, Ret.ptr 0]
      0 2 (GoAny.val 1) (GoAny.val 2)
      (by decide) (by decide) (by decide) (by decide) (by decide) (by decide)⟩

/-- C7 as stated fails on the trace `Alloc(1)`, `Wipe(0)`, `Set(0, 2)`,
`Set(5, 3)` from the empty table: handle 0 is live at the end although every
`Alloc` that returned 0 is followed by a `Wipe(0)`, and `Get(5)` returns `3`
although no `Alloc` returned 5. -/
theorem live_iff_allocated_counterexample :
    run 64 1 (Table.init Nat)
        [Op.alloc (GoAny.val 1), Op.wipe 0, Op.set 0 (GoAny.val 2), Op.set 5 (GoAny.val 3)]
      = some (Set (Set (Table.init Nat) 0 (GoAny.val 2)) 5 (GoAny.val 3),
          [Ret.ptr 0, Ret.unit, Ret.unit, Ret.unit]) ∧
    0 ∈ (Set (Set (Table.init Nat) 0 (GoAny.val 2)) 5 (GoAny.val 3)).live ∧
    (¬ ∃ (i : Nat) (v : GoAny Nat),
        [Op.alloc (GoAny.val 1), Op.wipe 0, Op.set 0 (GoAny.val 2),
          Op.set 5 (GoAny.val 3)][i]? = some (Op.alloc v) ∧
        [Ret.ptr 0, Ret.unit, Ret.unit, (Ret.unit : Ret Nat)][i]? = some (Ret.ptr 0) ∧
        ∀ k : Nat, i < k →
          [Op.alloc (GoAny.val 1), Op.wipe 0, Op.set 0 (GoAny.val 2),
            Op.set 5 (GoAny.val 3)][k]? ≠ some (Op.wipe 0)) ∧
    (¬ ∃ (i : Nat) (v : GoAny Nat),
        [Op.alloc (GoAny.val 1), Op.wipe 0, Op.set 0 (GoAny.val 2),
          Op.set 5 (GoAny.val 3)][i]? = some (Op.alloc v) ∧
        [Ret.ptr 0, Ret.unit, Ret.unit, (Ret.unit : Ret Nat)][i]? = some (Ret.ptr 5)) ∧
    Get (Set (Set (Table.init Nat) 0 (GoAny.val 2)) 5 (GoAny.val 3)) 5 = GoAny.val 3 := by
  refine ⟨by decide, by decide, ?_, ?_, by decide⟩
  · rintro ⟨i, v, ho, _, hall⟩
    match i with
    | 0 => exact hall 1 (by decide) (by decide)
    | 1 => simp at ho
    | 2 => simp at ho
    | 3 => simp at ho
    | n + 4 => simp at ho
  · rintro ⟨i, v, ho, hr⟩
    match i with
    | 0 => simp at hr
    | 1 => simp at ho
    | 2 => simp at ho
    | 3 => simp at ho
    | n + 4 => simp at ho

/-- C7 (amended): in every table reached from the empty table by a serialized
sequence of `Alloc`, `Get`, `Set` and `Wipe` calls, a handle `h` is a key of
`live` if and only if some call stored under `h` (an `Alloc` that returned `h`,
or a `Set(h, _)`) and no `Wipe(h)` occurs after that call; in particular
`Get(h)` returns nil for every handle `h` that no `Alloc` returned and no `Set`
was applied to. -/
theorem live_iff_stored_not_wiped {α : Type} (bits fuel : Nat) (h : Pointer)
    (ops : List (Op α)) (s2 : Table α) (rets : List (Ret α))
    (hrun : run bits fuel (Table.init α) ops = some (s2, rets)) :
    (h ∈ s2.live ↔
      ∃ (i : Nat) (op : Op α) (r : Ret α), ops[i]? = some op ∧ rets[i]? = some r ∧
        Stores h op r = true ∧ ∀ k : Nat, i < k → ops[k]? ≠ some (Op.wipe h)) ∧
    ((∀ (i : Nat) (op : Op α) (r : Ret α), ops[i]? = some op → rets[i]? = some r →
        Stores h op r = false) → Get s2 h = GoAny.nil) := by
  have key := run_mem_iff h ops (Table.init α) s2 rets hrun
  have hempty : h ∉ (Table.init α).live := Finmap.not_mem_empty
  have hiff : h ∈ s2.live ↔
      ∃ (i : Nat) (op : Op α) (r : Ret α), ops[i]? = some op ∧ rets[i]? = some r ∧
        Stores h op r = true ∧ ∀ k : Nat, i < k → ops[k]? ≠ some (Op.wipe h) := by
    rw [key]
    constructor
    · rintro (⟨hl, _⟩ | hex)
      · exact absurd hl hempty
      · exact hex
    · exact Or.inr
  refine ⟨hiff, ?_⟩
  intro hnone
  apply get_of_not_mem
  intro hl
  obtain ⟨i, op, r, ho, hr, hst, _⟩ := hiff.mp hl
  rw [hnone i op r ho hr] at hst
  exact Bool.noConfusion hst

/-- Instance of C7 (amended): after `Alloc(1)`, `Set(7, 3)`, `Wipe(0)` on the
empty table, handle 7 is live (stored by the `Set`, never wiped) and handle 4,
which nothing stored under, reads as nil. -/
theorem live_iff_stored_not_wiped_witness :
    run 64 1 (Table.init Nat) [Op.alloc (GoAny.val 1), Op.set 7 (GoAny.val 3), Op.wipe 0]
        = some (Set (Table.init Nat) 7 (GoAny.val 3), [Ret.ptr 0, Ret.unit, Ret.unit]) ∧
      (7 ∈ (Set (Table.init Nat) 7 (GoAny.val 3)).live ↔
        ∃ (i : Nat) (op : Op Nat) (r : Ret Nat),
          [Op.alloc (GoAny.val 1), Op.set 7 (GoAny.val 3), Op.wipe 0][i]? = some op ∧
          [Ret.ptr 0, Ret.unit, Ret.unit][i]? = some r ∧
          Stores 7 op r = true ∧
          ∀ k : Nat, i < k →
            [Op.alloc (GoAny.val 1), Op.set 7 (GoAny.val 3), Op.wipe 0][k]?
              ≠ some (Op.wipe 7)) :=
  ⟨by decide,
    (live_iff_stored_not_wiped 64 1 7
      [Op.alloc (GoAny.val 1), Op.set 7 (GoAny.val 3), Op.wipe 0]
      (Set (Table.init Nat) 7 (GoAny.val 3)) [Ret.ptr 0, Ret.unit, Ret.unit]
      (by decide)).1⟩

/-! ## Frame properties of Wipe and Alloc, and the cursor -/

/-- C11 (isolation of Wipe): for handles `h` and `k` with `k` different from `h`,
whether or not `h` is live or was ever allocated, the liveness of `k` and the
result of `Get(k)` are the same after `Wipe(h)` as before it. -/
theorem wipe_isolated {α : Type} (s : Table α) (h k : Pointer) (hne : k ≠ h) :
    (k ∈ (Wipe s h).live ↔ k ∈ s.live) ∧ Get (Wipe s h) k = Get s k := by
  constructor
  · rw [mem_wipe_iff]
    exact ⟨fun hm => hm.2, fun hm => ⟨hne, hm⟩⟩
  · simp [Get, Wipe, Finmap.lookup_erase_ne hne]

/-- Instance of C11: with 1, 2 and 3 live, `Wipe(2)` leaves handle 3 holding its
value; so does `Wipe(9)` of a handle that was never allocated. -/
theorem wipe_isolated_witness :
    ((3 ∈ (Wipe (Set (Set (Set (Table.init Nat) 1 (GoAny.val 1)) 2 (GoAny.val 2)) 3
          (GoAny.val 3)) 2).live ↔
        3 ∈ (Set (Set (Set (Table.init Nat) 1 (GoAny.val 1)) 2 (GoAny.val 2)) 3
          (GoAny.val 3)).live) ∧
      Get (Wipe (Set (Set (Set (Table.init Nat) 1 (GoAny.val 1)) 2 (GoAny.val 2)) 3
          (GoAny.val 3)) 2) 3 =
        Get (Set (Set (Set (Table.init Nat) 1 (GoAny.val 1)) 2 (GoAny.val 2)) 3
          (GoAny.val 3)) 3) ∧
    Get (Set (Set (Set (Table.init Nat) 1 (GoAny.val 1)) 2 (GoAny.val 2)) 3
          (GoAny.val 3)) 3 = GoAny.val 3 ∧
    Get (Wipe (Set (Set (Set (Table.init Nat) 1 (GoAny.val 1)) 2 (GoAny.val 2)) 3
          (GoAny.val 3)) 9) 3 = GoAny.val 3 :=
  ⟨wipe_isolated _ 2 3 (by decide), by decide,
    ((wipe_isolated (Set (Set (Set (Table.init Nat) 1 (GoAny.val 1)) 2 (GoAny.val 2)) 3
      (GoAny.val 3)) 9 3 (by decide)).2).trans (by decide)⟩

/-- C12 (release is idempotent): for a handle `h` that is not live, `Wipe(h)`
leaves the whole table (map and cursor) unchanged; hence, for every table and
handle, applying `Wipe(h)` twice gives the same table as applying it once. -/
theorem wipe_idempotent {α : Type} (s : Table α) (h : Pointer) :
    (h ∉ s.live → Wipe s h = s) ∧ Wipe (Wipe s h) h = Wipe s h := by
  have key : ∀ t : Table α, h ∉ t.live → Wipe t h = t := by
    intro t hl
    have hmap : t.live.erase h = t.live := by
      apply Finmap.ext_lookup
      intro x
      by_cases hx : x = h
      · subst hx
        rw [Finmap.lookup_erase, Finmap.lookup_eq_none.mpr hl]
      · exact Finmap.lookup_erase_ne hx
    cases t with
    | mk l n =>
      simp only [Wipe] at hmap ⊢
      rw [hmap]
  exact ⟨key s, key (Wipe s h) (fun hm => ((mem_wipe_iff s h h).mp hm).1 rfl)⟩

/-- Instance of C12: `Wipe(4)` on a table in which only 0 is live. -/
theorem wipe_idempotent_witness :
    4 ∉ (Set (Table.init Nat) 0 (GoAny.val 1)).live ∧
      Wipe (Set (Table.init Nat) 0 (GoAny.val 1)) 4 = Set (Table.init Nat) 0 (GoAny.val 1) :=
  ⟨by decide, (wipe_idempotent (Set (Table.init Nat) 0 (GoAny.val 1)) 4).1 (by decide)⟩

/-- C17 (isolation of Alloc): when `Alloc(v)` returns `h`, every handle `k`
different from `h` is live afterwards exactly when it was live before, and
`Get(k)` returns the same result after the call as before it. -/
theorem alloc_isolated {α : Type} (bits fuel : Nat) (s s1 : Table α) (v : GoAny α)
    (h k : Pointer) (hret : Alloc bits fuel s v = some (s1, h)) (hne : k ≠ h) :
    (k ∈ s1.live ↔ k ∈ s.live) ∧ Get s1 k = Get s k := by
  have hl := alloc_live hret
  constructor
  · rw [hl, Finmap.mem_insert]
    exact ⟨fun hm => hm.resolve_left hne, Or.inr⟩
  · simp [Get, hl, Finmap.lookup_insert_of_ne _ hne]

/-- Instance of C17: with 0 live holding `5`, `Alloc(7)` returns 1 and handle 0
still holds `5`. -/
theorem alloc_isolated_witness :
    Alloc 64 2 (Set (Table.init Nat) 0 (GoAny.val 5)) (GoAny.val 7)
        = some (Table.mk (Set (Set (Table.init Nat) 0 (GoAny.val 5)) 1 (GoAny.val 7)).live 1,
            1) ∧
      Get (Table.mk (Set (Set (Table.init Nat) 0 (GoAny.val 5)) 1 (GoAny.val 7)).live 1) 0
        = Get (Set (Table.init Nat) 0 (GoAny.val 5)) 0 ∧
      Get (Set (Table.init Nat) 0 (GoAny.val 5)) 0 = GoAny.val 5 :=
  ⟨by decide,
    (alloc_isolated 64 2 (Set (Table.init Nat) 0 (GoAny.val 5))
      (Table.mk (Set (Set (Table.init Nat) 0 (GoAny.val 5)) 1 (GoAny.val 7)).live 1)
      (GoAny.val 7) 1 0 (by decide) (by decide)).2,
    by decide⟩

/-- C18 (only Alloc moves the cursor): the cursor `next` after `Wipe(h)` and after
`Set(h, v)` equals the cursor before the call; `Wipe` does not move it back to
the released number. -/
theorem wipe_set_keep_cursor {α : Type} (s : Table α) (h : Pointer) (v : GoAny α) :
    (Wipe s h).next = s.next ∧ (Set s h v).next = s.next :=
  ⟨rfl, rfl⟩

/-- C16 as stated fails: `Alloc(1)` on the empty table returns handle 0 and leaves
the cursor at 0, the handle just made live, not at 1. -/
theorem alloc_cursor_advance_counterexample :
    Alloc 64 1 (Table.init Nat) (GoAny.val 1) = some (Set (Table.init Nat) 0 (GoAny.val 1), 0) ∧
      (Set (Table.init Nat) 0 (GoAny.val 1)).next = 0 ∧
      (Set (Table.init Nat) 0 (GoAny.val 1)).next ≠ (0 + 1) % 2 ^ 64 ∧
      (Set (Table.init Nat) 0 (GoAny.val 1)).next ∈ (Set (Table.init Nat) 0 (GoAny.val 1)).live := by
  decide

/-- C16 (amended): after `Alloc(v)` returns the handle `h`, the cursor `next`
equals `h`: it points at the handle that was just made live and has not been
advanced past it. -/
theorem alloc_cursor_at_result {α : Type} (bits fuel : Nat) (s s1 : Table α) (v : GoAny α)
    (h : Pointer) (hret : Alloc bits fuel s v = some (s1, h)) :
    s1.next = h ∧ s1.next ∈ s1.live := by
  rw [(alloc_eq_some hret).2]
  exact ⟨rfl, by simp [Finmap.mem_insert]⟩

/-- Instance of C16 (amended): with 0 and 1 live and the cursor at 0, `Alloc`
returns 2 and the cursor is 2 afterwards. -/
theorem alloc_cursor_at_result_witness :
    Alloc 64 3 (Set (Set (Table.init Nat) 0 GoAny.nil) 1 (GoAny.val 5)) (GoAny.val 7)
        = some (Table.mk
            (Set (Set (Set (Table.init Nat) 0 GoAny.nil) 1 (GoAny.val 5)) 2 (GoAny.val 7)).live
            2, 2) ∧
      (Table.mk
          (Set (Set (Set (Table.init Nat) 0 GoAny.nil) 1 (GoAny.val 5)) 2 (GoAny.val 7)).live
          2).next = 2 :=
  ⟨by decide,
    (alloc_cursor_at_result 64 3 (Set (Set (Table.init Nat) 0 GoAny.nil) 1 (GoAny.val 5))
      (Table.mk
        (Set (Set (Set (Table.init Nat) 0 GoAny.nil) 1 (GoAny.val 5)) 2 (GoAny.val 7)).live 2)
      (GoAny.val 7) 2 (by decide)).1⟩

/-- Calls other than `Alloc` and `Set(h, _)` always return, leave the cursor where
it was and do not make `h` live. -/
theorem run_keeps_free {α : Type} (bits fuel : Nat) (h : Pointer) :
    ∀ (mid : List (Op α)) (t : Table α),
      (∀ op ∈ mid, (∀ v : GoAny α, op ≠ Op.alloc v) ∧ (∀ v : GoAny α, op ≠ Op.set h v)) →
      ∃ (t2 : Table α) (rs : List (Ret α)), run bits fuel t mid = some (t2, rs) ∧
        t2.next = t.next ∧ (h ∉ t.live → h ∉ t2.live) := by
  intro mid
  induction mid with
  | nil => intro t _; exact ⟨t, [], rfl, rfl, id⟩
  | cons op ops ih =>
    intro t hmid
    have hop := hmid op (List.mem_cons_self op ops)
    have hrest : ∀ o ∈ ops, (∀ v : GoAny α, o ≠ Op.alloc v) ∧ (∀ v : GoAny α, o ≠ Op.set h v) :=
      fun o ho => hmid o (List.mem_cons_of_mem op ho)
    have hstep : ∃ (t1 : Table α) (r : Ret α), step bits fuel t op = some (t1, r) ∧
        t1.next = t.next ∧ (h ∉ t.live → h ∉ t1.live) := by
      cases op with
      | alloc v => exact absurd rfl (hop.1 v)
      | get x => exact ⟨t, _, rfl, rfl, id⟩
      | set x v =>
        refine ⟨Set t x v, _, rfl, rfl, ?_⟩
        intro hl hm
        rcases (mem_set_iff t x h v).mp hm with hx | hm1
        · exact hop.2 v (by rw [hx])
        · exact hl hm1
      | wipe x =>
        refine ⟨Wipe t x, _, rfl, rfl, ?_⟩
        intro hl hm
        exact hl ((mem_wipe_iff t x h).mp hm).2
    obtain ⟨t1, r, hs, hn1, hl1⟩ := hstep
    obtain ⟨t2, rs, hr, hn2, hl2⟩ := ih t1 hrest
    refine ⟨t2, r :: rs, ?_, hn2.trans hn1, fun hl => hl2 (hl1 hl)⟩
    unfold run
    rw [hs]
    simp only
    rw [hr]

/-- C19 as stated fails when a `Set` on the wiped handle stands between the
`Wipe` and the second `Alloc` (no `Alloc` stands between): on the empty table
`Alloc(1)` returns 0, then `Wipe(0)`, `Set(0, 9)`, and `Alloc(2)` returns 1, not
0; handle 0 reads `9`, not `2`. -/
theorem alloc_reuse_after_set_counterexample :
    run 64 2 (Table.init Nat)
        [Op.alloc (GoAny.val 1), Op.wipe 0, Op.set 0 (GoAny.val 9), Op.alloc (GoAny.val 2)]
      = some (Table.mk (Set (Set (Table.init Nat) 0 (GoAny.val 9)) 1 (GoAny.val 2)).live 1,
          [Ret.ptr 0, Ret.unit, Ret.unit, Ret.ptr 1]) ∧
    (Ret.ptr 1 : Ret Nat) ≠ Ret.ptr 0 ∧
    Get (Table.mk (Set (Set (Table.init Nat) 0 (GoAny.val 9)) 1 (GoAny.val 2)).live 1) 0
      = GoAny.val 9 ∧
    Get (Table.mk (Set (Set (Table.init Nat) 0 (GoAny.val 9)) 1 (GoAny.val 2)).live 1) 0
      ≠ GoAny.val 2 := by
  decide

/-- C19 (amended, immediate reuse): when `Alloc(v1)` returns `h`, `Wipe(h)` is
applied next, and then any sequence `mid` of calls that contains no `Alloc` and
no `Set(h, _)` is executed, the sequence runs to its end and the following
`Alloc(v2)` returns (at its first test of `live[next]`) the same number `h`,
which then holds `v2`; a stale copy of the first handle reads the second
value. -/
theorem alloc_wipe_alloc_reuses {α : Type} (bits fuel fuel2 : Nat) (s s1 : Table α)
    (v1 v2 : GoAny α) (h : Pointer) (mid : List (Op α))
    (hret : Alloc bits fuel s v1 = some (s1, h))
    (hmid : ∀ op ∈ mid, (∀ v : GoAny α, op ≠ Op.alloc v) ∧ (∀ v : GoAny α, op ≠ Op.set h v))
    (hfuel : 0 < fuel2) :
    ∃ (s2 s3 : Table α) (rs : List (Ret α)),
      run bits fuel (Wipe s1 h) mid = some (s2, rs) ∧
      Alloc bits fuel2 s2 v2 = some (s3, h) ∧ Get s3 h = v2 := by
  have hnext : (Wipe s1 h).next = h := (alloc_eq_some hret).2 ▸ rfl
  have hfree : h ∉ (Wipe s1 h).live := fun hm => ((mem_wipe_iff s1 h h).mp hm).1 rfl
  obtain ⟨s2, rs, hrun, hn2, hl2⟩ := run_keeps_free bits fuel h mid (Wipe s1 h) hmid
  have hlook : s2.live.lookup h = none := Finmap.lookup_eq_none.mpr (hl2 hfree)
  obtain ⟨n, rfl⟩ : ∃ n, fuel2 = n + 1 := ⟨fuel2 - 1, by omega⟩
  have hp : probe bits s2.live (n + 1) s2.next = some h := by
    rw [hn2, hnext]
    unfold probe
    rw [hlook]
  refine ⟨s2, { live := s2.live.insert h v2, next := h }, rs, hrun, ?_, ?_⟩
  · unfold Alloc
    rw [hp]
  · simp [Get]

/-- Instance of C19 (amended): on a table with 0 live, `Alloc(1)` returns 1; after
`Wipe(1)`, `Get(1)`, `Set(0, 8)` and `Wipe(5)` the next `Alloc(2)` returns 1
again, now holding `2`. -/
theorem alloc_wipe_alloc_reuses_witness :
    Alloc 64 2 (Set (Table.init Nat) 0 (GoAny.val 5)) (GoAny.val 1)
        = some (Table.mk (Set (Set (Table.init Nat) 0 (GoAny.val 5)) 1 (GoAny.val 1)).live 1,
            1) ∧
      (∃ (s2 s3 : Table Nat) (rs : List (Ret Nat)),
        run 64 2
            (Wipe (Table.mk (Set (Set (Table.init Nat) 0 (GoAny.val 5)) 1 (GoAny.val 1)).live 1)
              1) [Op.get 1, Op.set 0 (GoAny.val 8), Op.wipe 5] = some (s2, rs) ∧
          Alloc 64 2 s2 (GoAny.val 2) = some (s3, 1) ∧
          Get s3 1 = GoAny.val 2) :=
  ⟨by decide,
    alloc_wipe_alloc_reuses 64 2 2 (Set (Table.init Nat) 0 (GoAny.val 5))
      (Table.mk (Set (Set (Table.init Nat) 0 (GoAny.val 5)) 1 (GoAny.val 1)).live 1)
      (GoAny.val 1) (GoAny.val 2) 1 [Op.get 1, Op.set 0 (GoAny.val 8), Op.wipe 5]
      (by decide) (by simp) (by decide)⟩

/-! ## The probe loop -/

/-- While the candidates `next`, `next + 1`, ... (modulo `2 ^ bits`) are live, the
loop keeps going: `k` tests are not enough when the first `k` candidates are live. -/
theorem probe_none_of_live {α : Type} (bits : Nat) (live : LiveMap α) :
    ∀ (k : Nat) (next : Pointer), next < 2 ^ bits →
      (∀ j : Nat, j < k → (next + j) % 2 ^ bits ∈ live) →
      probe bits live k next = none := by
  intro k
  induction k with
  | zero => intro next _ _; rfl
  | succ k ih =>
    intro next hnext hall
    have h0 : next ∈ live := by
      have := hall 0 (Nat.succ_pos k)
      rwa [Nat.add_zero, Nat.mod_eq_of_lt hnext] at this
    unfold probe
    cases hl : live.lookup next with
    | none => exact absurd h0 (Finmap.lookup_eq_none.mp hl)
    | some w =>
      simp only
      apply ih _ (Nat.mod_lt _ (Nat.two_pow_pos bits))
      intro j hj
      rw [Nat.mod_add_mod, Nat.add_assoc, Nat.add_comm 1 j]
      exact hall (j + 1) (Nat.succ_lt_succ hj)

/-- The loop stops at the first candidate that is not live: when the first `k`
candidates are live and the next one is not, `k + 1` tests return it. -/
theorem probe_some_of_least {α : Type} (bits : Nat) (live : LiveMap α) :
    ∀ (k : Nat) (next : Pointer), next < 2 ^ bits →
      (∀ j : Nat, j < k → (next + j) % 2 ^ bits ∈ live) →
      (next + k) % 2 ^ bits ∉ live →
      probe bits live (k + 1) next = some ((next + k) % 2 ^ bits) := by
  intro k
  induction k with
  | zero =>
    intro next hnext _ hfree
    simp only [Nat.add_zero, Nat.mod_eq_of_lt hnext] at hfree ⊢
    unfold probe
    rw [Finmap.lookup_eq_none.mpr hfree]
  | succ k ih =>
    intro next hnext hall hfree
    have h0 : next ∈ live := by
      have := hall 0 (Nat.succ_pos k)
      rwa [Nat.add_zero, Nat.mod_eq_of_lt hnext] at this
    have hshift : ∀ j : Nat, ((next + 1) % 2 ^ bits + j) % 2 ^ bits
        = (next + (j + 1)) % 2 ^ bits := by
      intro j
      rw [Nat.mod_add_mod, Nat.add_assoc, Nat.add_comm 1 j]
    unfold probe
    cases hl : live.lookup next with
    | none => exact absurd h0 (Finmap.lookup_eq_none.mp hl)
    | some w =>
      simp only
      rw [← hshift k]
      apply ih _ (Nat.mod_lt _ (Nat.two_pow_pos bits))
      · intro j hj
        rw [hshift j]
        exact hall (j + 1) (Nat.succ_lt_succ hj)
      · rw [hshift k]
        exact hfree

/-- When some handle of the range is free, going up from `next` (modulo
`2 ^ bits`) meets a first free handle after fewer than `2 ^ bits` steps. -/
theorem exists_least_free {α : Type} (bits : Nat) (live : LiveMap α) (next : Nat)
    (hnext : next < 2 ^ bits) (hfree : ∃ p : Nat, p < 2 ^ bits ∧ p ∉ live) :
    ∃ k : Nat, k < 2 ^ bits ∧ (next + k) % 2 ^ bits ∉ live ∧
      ∀ j : Nat, j < k → (next + j) % 2 ^ bits ∈ live := by
  classical
  obtain ⟨p, hp, hpl⟩ := hfree
  have hex : ∃ k : Nat, k < 2 ^ bits ∧ (next + k) % 2 ^ bits ∉ live := by
    revert hnext hp
    generalize 2 ^ bits = R
    intro hnext hp
    by_cases hle : next ≤ p
    · refine ⟨p - next, by omega, ?_⟩
      rw [Nat.add_sub_cancel' hle, Nat.mod_eq_of_lt hp]
      exact hpl
    · refine ⟨p + R - next, by omega, ?_⟩
      have : next + (p + R - next) = p + R := by omega
      rw [this, Nat.add_mod_right, Nat.mod_eq_of_lt hp]
      exact hpl
  have hex2 : ∃ k : Nat, (next + k) % 2 ^ bits ∉ live := by
    obtain ⟨k, _, hk⟩ := hex
    exact ⟨k, hk⟩
  refine ⟨Nat.find hex2, ?_, Nat.find_spec hex2, ?_⟩
  · obtain ⟨k, hk, hkl⟩ := hex
    exact lt_of_le_of_lt (Nat.find_min' hex2 hkl) hk
  · intro j hj
    exact not_not.mp (Nat.find_min hex2 hj)

/-- Distinct candidates: `k` successive candidates that are all live are `k`
different keys of `live`, as long as `k` does not exceed the range. -/
theorem live_run_le_card {α : Type} (bits : Nat) (live : LiveMap α) (next : Pointer)
    (k : Nat) (hk : k ≤ 2 ^ bits)
    (hall : ∀ j : Nat, j < k → (next + j) % 2 ^ bits ∈ live) :
    k ≤ live.keys.card := by
  have hle := Finset.card_le_card_of_injOn (fun j => (next + j) % 2 ^ bits)
    (fun j hj => Finmap.mem_keys.mpr (hall j (Finset.mem_range.mp hj)))
    (fun a ha b hb hab => by
      have ha1 : a < k := Finset.mem_range.mp (Finset.mem_coe.mp ha)
      have hb1 : b < k := Finset.mem_range.mp (Finset.mem_coe.mp hb)
      have hmod : a ≡ b [MOD 2 ^ bits] := Nat.ModEq.add_left_cancel' next hab
      exact Nat.ModEq.eq_of_lt_of_lt hmod (lt_of_lt_of_le ha1 hk) (lt_of_lt_of_le hb1 hk))
  rwa [Finset.card_range] at hle

theorem alloc_of_probe {α : Type} {bits fuel : Nat} {s : Table α} {n : Pointer}
    (v : GoAny α) (hp : probe bits s.live fuel s.next = some n) :
    Alloc bits fuel s v = some ({ live := s.live.insert n v, next := n }, n) := by
  unfold Alloc
  rw [hp]

/-- The loop of `Alloc` on a table whose first `k` candidates are live and whose
next candidate is free: any bound above `k` tests returns that candidate, and a
bound of at most `k` tests is used up. -/
theorem alloc_at_least_free {α : Type} (bits : Nat) (s : Table α) (v : GoAny α) (k : Nat)
    (hnext : s.next < 2 ^ bits)
    (hall : ∀ j : Nat, j < k → (s.next + j) % 2 ^ bits ∈ s.live)
    (hfree : (s.next + k) % 2 ^ bits ∉ s.live) (fuel : Nat) :
    (k < fuel → Alloc bits fuel s v =
        some ({ live := s.live.insert ((s.next + k) % 2 ^ bits) v,
                next := (s.next + k) % 2 ^ bits }, (s.next + k) % 2 ^ bits)) ∧
      (fuel ≤ k → Alloc bits fuel s v = none) := by
  constructor
  · intro hlt
    apply alloc_of_probe
    have hk := probe_some_of_least bits s.live k s.next hnext hall hfree
    have := probe_fuel_mono bits s.live (k + 1) (fuel - (k + 1)) s.next _ hk
    rwa [Nat.add_sub_cancel' hlt] at this
  · intro hle
    have hnone := probe_none_of_live bits s.live fuel s.next hnext
      (fun j hj => hall j (lt_of_lt_of_le hj hle))
    unfold Alloc
    rw [hnone]

/-- C13 (allocation succeeds short of exhaustion): on every table whose cursor is
a `uint` and in which some value of the `uint` range is not a key of `live`, the
probe loop stops and `Alloc` returns a handle, after `k` increments of the
cursor (the loop has not stopped within `k` tests and returns at test `k + 1`)
where `k` is at most the number of live handles; so a bound of one more test
than there are live handles always suffices. -/
theorem alloc_succeeds {α : Type} (bits : Nat) (s : Table α) (v : GoAny α)
    (hnext : s.next < 2 ^ bits) (hfree : ∃ p : Pointer, p < 2 ^ bits ∧ p ∉ s.live) :
    ∃ (k : Nat) (s1 : Table α) (h : Pointer),
      k ≤ s.live.keys.card ∧
      probe bits s.live k s.next = none ∧
      (∀ fuel : Nat, k < fuel → Alloc bits fuel s v = some (s1, h)) ∧
      Alloc bits (s.live.keys.card + 1) s v = some (s1, h) := by
  obtain ⟨k, hk, hkfree, hall⟩ := exists_least_free bits s.live s.next hnext hfree
  have hcard : k ≤ s.live.keys.card :=
    live_run_le_card bits s.live s.next k (Nat.le_of_lt hk) hall
  refine ⟨k, _, _, hcard, probe_none_of_live bits s.live k s.next hnext hall,
    fun fuel hf => (alloc_at_least_free bits s v k hnext hall hkfree fuel).1 hf,
    (alloc_at_least_free bits s v k hnext hall hkfree _).1 (Nat.lt_succ_of_le hcard)⟩

/-- Instance of C13 on a 64-bit target: the cursor is at the last handle
`2 ^ 64 - 1`, which is live like handle 0, and handle 1 is free. -/
theorem alloc_succeeds_witness :
    (Table.mk (Set (Set (Table.init Nat) (2 ^ 64 - 1) (GoAny.val 1)) 0 (GoAny.val 2)).live
        (2 ^ 64 - 1)).next < 2 ^ 64 ∧
    ∃ (k : Nat) (s1 : Table Nat) (h : Pointer),
      k ≤ (Table.mk (Set (Set (Table.init Nat) (2 ^ 64 - 1) (GoAny.val 1)) 0 (GoAny.val 2)).live
        (2 ^ 64 - 1)).live.keys.card ∧
      probe 64 (Table.mk (Set (Set (Table.init Nat) (2 ^ 64 - 1) (GoAny.val 1)) 0
        (GoAny.val 2)).live (2 ^ 64 - 1)).live k (2 ^ 64 - 1) = none ∧
      (∀ fuel : Nat, k < fuel →
        Alloc 64 fuel (Table.mk (Set (Set (Table.init Nat) (2 ^ 64 - 1) (GoAny.val 1)) 0
          (GoAny.val 2)).live (2 ^ 64 - 1)) (GoAny.val 3) = some (s1, h)) ∧
      Alloc 64 ((Table.mk (Set (Set (Table.init Nat) (2 ^ 64 - 1) (GoAny.val 1)) 0
          (GoAny.val 2)).live (2 ^ 64 - 1)).live.keys.card + 1)
        (Table.mk (Set (Set (Table.init Nat) (2 ^ 64 - 1) (GoAny.val 1)) 0
          (GoAny.val 2)).live (2 ^ 64 - 1)) (GoAny.val 3) = some (s1, h) :=
  ⟨by decide,
    alloc_succeeds 64
      (Table.mk (Set (Set (Table.init Nat) (2 ^ 64 - 1) (GoAny.val 1)) 0 (GoAny.val 2)).live
        (2 ^ 64 - 1)) (GoAny.val 3) (by decide) ⟨1, by decide, by decide⟩⟩

/-- C15 (probe order of Alloc): on every table whose cursor `c` is a `uint` and in
which some handle of the range is absent, there is a `k` such that `c + k`
(modulo `2 ^ bits`) is not live, every candidate `c + j` (modulo `2 ^ bits`) with
`j < k` is live, and `Alloc` returns exactly the handle `c + k` (modulo
`2 ^ bits`); and `Alloc` returns `c` itself when `c` is not live. -/
theorem alloc_probe_order {α : Type} (bits : Nat) (s : Table α) (v : GoAny α) :
    (s.next < 2 ^ bits → (∃ p : Pointer, p < 2 ^ bits ∧ p ∉ s.live) →
      ∃ k : Nat, (s.next + k) % 2 ^ bits ∉ s.live ∧
        (∀ j : Nat, j < k → (s.next + j) % 2 ^ bits ∈ s.live) ∧
        (∀ fuel : Nat, k < fuel →
          ∃ s1 : Table α, Alloc bits fuel s v = some (s1, (s.next + k) % 2 ^ bits)) ∧
        (∀ (fuel : Nat) (s1 : Table α) (h : Pointer),
          Alloc bits fuel s v = some (s1, h) → h = (s.next + k) % 2 ^ bits)) ∧
    (s.next ∉ s.live → ∀ fuel : Nat, 0 < fuel →
      ∃ s1 : Table α, Alloc bits fuel s v = some (s1, s.next)) := by
  constructor
  · intro hnext hfree
    obtain ⟨k, _, hkfree, hall⟩ := exists_least_free bits s.live s.next hnext hfree
    refine ⟨k, hkfree, hall, ?_, ?_⟩
    · intro fuel hf
      exact ⟨_, (alloc_at_least_free bits s v k hnext hall hkfree fuel).1 hf⟩
    · intro fuel s1 h hret
      by_cases hf : k < fuel
      · rw [(alloc_at_least_free bits s v k hnext hall hkfree fuel).1 hf] at hret
        simp only [Option.some.injEq, Prod.mk.injEq] at hret
        exact hret.2.symm
      · rw [(alloc_at_least_free bits s v k hnext hall hkfree fuel).2 (Nat.le_of_not_lt hf)]
          at hret
        exact Option.noConfusion hret
  · intro hfree fuel hf
    obtain ⟨n, rfl⟩ : ∃ n, fuel = n + 1 := ⟨fuel - 1, by omega⟩
    have hp : probe bits s.live (n + 1) s.next = some s.next := by
      unfold probe
      rw [Finmap.lookup_eq_none.mpr hfree]
    exact ⟨_, alloc_of_probe v hp⟩

/-- Instance of C15 on a 64-bit target: the cursor is at `2 ^ 64 - 1`, the handles
`2 ^ 64 - 1` and 0 are live and 1 is free; and on the empty table `Alloc` returns
the cursor 0 itself. -/
theorem alloc_probe_order_witness :
    (∃ k : Nat, ((2 ^ 64 - 1) + k) % 2 ^ 64 ∉
          (Set (Set (Table.init Nat) (2 ^ 64 - 1) (GoAny.val 1)) 0 (GoAny.val 2)).live ∧
        (∀ j : Nat, j < k → ((2 ^ 64 - 1) + j) % 2 ^ 64 ∈
          (Set (Set (Table.init Nat) (2 ^ 64 - 1) (GoAny.val 1)) 0 (GoAny.val 2)).live) ∧
        (∀ fuel : Nat, k < fuel →
          ∃ s1 : Table Nat,
            Alloc 64 fuel
              (Table.mk (Set (Set (Table.init Nat) (2 ^ 64 - 1) (GoAny.val 1)) 0
                (GoAny.val 2)).live (2 ^ 64 - 1)) (GoAny.val 3)
              = some (s1, ((2 ^ 64 - 1) + k) % 2 ^ 64)) ∧
        (∀ (fuel : Nat) (s1 : Table Nat) (h : Pointer),
          Alloc 64 fuel
              (Table.mk (Set (Set (Table.init Nat) (2 ^ 64 - 1) (GoAny.val 1)) 0
                (GoAny.val 2)).live (2 ^ 64 - 1)) (GoAny.val 3) = some (s1, h) →
            h = ((2 ^ 64 - 1) + k) % 2 ^ 64)) ∧
    (∃ s1 : Table Nat, Alloc 64 1 (Table.init Nat) (GoAny.val 3) = some (s1, 0)) :=
  ⟨(alloc_probe_order 64
      (Table.mk (Set (Set (Table.init Nat) (2 ^ 64 - 1) (GoAny.val 1)) 0 (GoAny.val 2)).live
        (2 ^ 64 - 1)) (GoAny.val 3)).1 (by decide) ⟨1, by decide, by decide⟩,
    (alloc_probe_order 64 (Table.init Nat) (GoAny.val 3)).2 (by decide) 1 (by decide)⟩

end Resource
